import Mathlib

/-!
# Coin: `SoActionMethodList` (src/lists/SoActionMethodList.cpp)

A shallow embedding of the action method list of the Coin scene graph
library: the per-action table of function pointers indexed by node type,
its registration call `addMethod` and its lazy rebuild `setUp`, with the
chaining to the parent action's list.

* Function pointers are the type `SoActionMethod`: the null pointer, the
  address of `SoAction::nullAction`, or the address of some other function.
* The type system (`SoType`) is external to the file: the three queries the
  code makes (`SoType::getNumTypes`, `SoType::getAllDerivedFrom`,
  `SoType::getData`) and `SoNode::getClassTypeId` are the fields of
  `SoTypeRegistry`, a parameter of everything below.
* The lists live in a heap (`List SoActionMethodList`); `this` and the
  `parent` pointer are positions in the heap, so that parent links of any
  shape, cyclic ones included, can be written down.
-/

namespace Coin

/-- A function pointer of type `SoActionMethod`: `NULL`, the address of
`SoAction::nullAction`, or the address of another function. -/
inductive SoActionMethod where
  | NULL
  | nullAction
  | method (addr : Nat)
  deriving DecidableEq, Repr

/-- An `SoType` value (a key handed out by the type system). -/
abbrev SoType := Nat

/-- The queries `SoActionMethodList.cpp` makes to the type system, which is
not part of the file: `SoType::getNumTypes()`, `type.getData()` (the index a
node type has in action method lists), `SoType::getAllDerivedFrom(type, l)`
(the types appended to `l`; the returned count is the length of that list) and
`SoNode::getClassTypeId()`. -/
structure SoTypeRegistry where
  getNumTypes : Nat
  getData : SoType → Nat
  getAllDerivedFrom : SoType → List SoType
  nodeClassTypeId : SoType

/-! ## `SbPList`: the pointer list under the table

`SoActionMethodList` derives from `SbPList`, whose `operator[]` is used by
`setUp` right after `truncate(0)`: it grows the list when the index is past
the end, the new slots holding `NULL`. -/

/-- Modelled from the spec: `SbPList::expandlist`, absent from the sources; the
list grown to `size` slots (array growth on access, as the spec describes the
reference behaviour). The new slots hold `NULL`: `setUp` assigns into the list
it has just emptied and then looks for the slots that are `NULL` (lines
120-126). -/
def expandlist (l : List SoActionMethod) (size : Nat) : List SoActionMethod :=
  l ++ List.replicate (size - l.length) SoActionMethod.NULL

/-- The list after `(*this)[index]` was evaluated: grown to cover `index`. -/
def touch (l : List SoActionMethod) (index : Nat) : List SoActionMethod :=
  if index < l.length then l else expandlist l (index + 1)

/-- The value `(*this)[index]` reads. -/
def item (l : List SoActionMethod) (index : Nat) : SoActionMethod :=
  l.getD index SoActionMethod.NULL

/-- The list after `(*this)[index] = m`. -/
def assign (l : List SoActionMethod) (index : Nat) (m : SoActionMethod) :
    List SoActionMethod :=
  (touch l index).set index m

/-- The object: the `SbPList` base (`items`) and the fields of
`SoActionMethodListP`. `parent` is a position in the heap, `none` for `NULL`.
`addedtypes` and `addedmethods` are only ever appended to together. -/
structure SoActionMethodList where
  items : List SoActionMethod
  parent : Option Nat
  setupnumtypes : Nat
  addedtypes : List SoType
  addedmethods : List SoActionMethod
  deriving DecidableEq, Repr

/-- The heap of action method lists. -/
abbrev Heap := List SoActionMethodList

/-- `SoActionMethodList::SoActionMethodList(parentlist)`. -/
def SoActionMethodList.new (parentlist : Option Nat) : SoActionMethodList :=
  { items := [], parent := parentlist, setupnumtypes := 0,
    addedtypes := [], addedmethods := [] }

/-- `SoActionMethodList::addMethod(node, method)`. -/
def SoActionMethodList.addMethod (o : SoActionMethodList) (node : SoType)
    (method : SoActionMethod) : SoActionMethodList :=
  { o with
    addedtypes := o.addedtypes ++ [node]
    addedmethods := o.addedmethods ++ [method]
    setupnumtypes := 0 }

/-- Body of the loop of lines 106-118 for one registration: the method is
stored at the type's index and at the index of every type derived from it. -/
def replayOne (reg : SoTypeRegistry) (tbl : List SoActionMethod)
    (r : SoType × SoActionMethod) : List SoActionMethod :=
  (reg.getAllDerivedFrom r.1).foldl
    (fun t d => assign t (reg.getData d) r.2)
    (assign tbl (reg.getData r.1) r.2)

/-- Lines 102-118: the table emptied, then every registration replayed in
insertion order. -/
def replay (reg : SoTypeRegistry) (regs : List (SoType × SoActionMethod)) :
    List SoActionMethod :=
  regs.foldl (replayOne reg) []

/-- Lines 124-126: every `NULL` slot becomes `SoAction::nullAction`. -/
def fillNull (tbl : List SoActionMethod) : List SoActionMethod :=
  tbl.map (fun m => if m = SoActionMethod.NULL then SoActionMethod.nullAction else m)

/-- Lines 127-129: `nullAction` appended until the list is as long as the
list of the types derived from `SoNode`. -/
def padNull (tbl : List SoActionMethod) (numderived : Nat) : List SoActionMethod :=
  tbl ++ List.replicate (numderived - tbl.length) SoActionMethod.nullAction

/-- Lines 102-129 on one object: the table rebuilt from its own registrations. -/
def localTable (reg : SoTypeRegistry) (o : SoActionMethodList) : List SoActionMethod :=
  padNull (fillNull (replay reg (o.addedtypes.zip o.addedmethods)))
    (reg.getAllDerivedFrom reg.nodeClassTypeId).length

/-- Lines 101-129 on one object: the marker takes the current number of types
and the table is rebuilt from the object's own registrations. -/
def rebuilt (reg : SoTypeRegistry) (o : SoActionMethodList) : SoActionMethodList :=
  { o with setupnumtypes := reg.getNumTypes, items := localTable reg o }

/-- One step of the loop of lines 135-137. -/
def fillStep (par : List SoActionMethod) (tbl : List SoActionMethod) (i : Nat) :
    List SoActionMethod :=
  if item tbl i = SoActionMethod.nullAction then assign tbl i (item par i)
  else touch tbl i

/-- Lines 134-137: for every index below the parent's length, a slot that
holds `nullAction` takes the parent's entry. `par` is the parent's list when
the loop starts; when the parent is the object itself the loop changes no
entry, so reading the snapshot is reading the list. -/
def fillFromParent (tbl par : List SoActionMethod) : List SoActionMethod :=
  (List.range par.length).foldl (fillStep par) tbl

/-- `SoActionMethodList::setUp()` on the object at position `this` of the heap.
The recursion into the parent consumes one unit of `fuel`; `none` is returned
when the fuel is spent or a pointer leaves the heap. -/
def setUpAux (reg : SoTypeRegistry) : Nat → Heap → Nat → Option Heap
  | 0, _, _ => none
  | fuel + 1, h, this =>
    match h[this]? with
    | none => none
    | some o =>
      if o.setupnumtypes ≠ reg.getNumTypes then
        let h1 := h.set this (rebuilt reg o)
        match o.parent with
        | none => some h1
        | some p =>
          match setUpAux reg fuel h1 p with
          | none => none
          | some h2 =>
            match h2[this]?, h2[p]? with
            | some o2, some po =>
              some (h2.set this { o2 with items := fillFromParent o2.items po.items })
            | _, _ => none
      else some h

/-- `setUp()` with fuel for every object of the heap and one more call. -/
def setUp (reg : SoTypeRegistry) (h : Heap) (this : Nat) : Option Heap :=
  setUpAux reg (h.length + 1) h this

/-- The registration of the type `A` stores its method in slot `j`: `j` is the
index of `A` or of a type that `getAllDerivedFrom(A)` lists. -/
def writes (reg : SoTypeRegistry) (A : SoType) (j : Nat) : Prop :=
  j = reg.getData A ∨ ∃ d ∈ reg.getAllDerivedFrom A, reg.getData d = j

instance (reg : SoTypeRegistry) (A : SoType) (j : Nat) : Decidable (writes reg A j) :=
  inferInstanceAs (Decidable (_ ∨ _))

/-- The registration of the type `A` covers the type `T`: `A` is `T` or
`getAllDerivedFrom(A)` lists `T` (`A` is an ancestor of `T`). -/
def covers (reg : SoTypeRegistry) (A T : SoType) : Prop :=
  A = T ∨ T ∈ reg.getAllDerivedFrom A

instance (reg : SoTypeRegistry) (A T : SoType) : Decidable (covers reg A T) :=
  inferInstanceAs (Decidable (_ ∨ _))

/-- The table stores `nullAction` where a `NULL` was registered. -/
def stored (m : SoActionMethod) : SoActionMethod :=
  if m = SoActionMethod.NULL then SoActionMethod.nullAction else m

/-- The number of objects of the heap whose marker differs from the current
number of types. -/
def staleCount (reg : SoTypeRegistry) (h : Heap) : Nat :=
  h.countP (fun o => decide (o.setupnumtypes ≠ reg.getNumTypes))

/-- What a run of `setUp` may do to a heap: no object is added or removed, every
object keeps its parent pointer and its registrations, and an object whose
marker already equals the number of types is left as it is. -/
def Evolves (reg : SoTypeRegistry) (h h' : Heap) : Prop :=
  h'.length = h.length ∧
  ∀ (i : Nat) (o : SoActionMethodList), h[i]? = some o →
    ∃ o' : SoActionMethodList, h'[i]? = some o' ∧ o'.parent = o.parent ∧
    o'.addedtypes = o.addedtypes ∧ o'.addedmethods = o.addedmethods ∧
    (o.setupnumtypes = reg.getNumTypes → o' = o)

/-- The object a sequence of `addMethod` calls leaves behind on a freshly
constructed list. -/
def registered (parentlist : Option Nat) (regs : List (SoType × SoActionMethod)) :
    SoActionMethodList :=
  regs.foldl (fun o r => o.addMethod r.1 r.2) (SoActionMethodList.new parentlist)

/-- Modelled from the spec: the type registry gives every type an index of its
own (the spec's unique identifier per object type); the registry is not part
of the sources. -/
def UniqueIds (reg : SoTypeRegistry) : Prop :=
  Function.Injective reg.getData

/-- Modelled from the spec: the indices of the node types are dense; the list of
the types derived from `SoNode` names no index twice, and below the index of a
node type every index is the index of a node type. -/
def DenseNodeIds (reg : SoTypeRegistry) : Prop :=
  ((reg.getAllDerivedFrom reg.nodeClassTypeId).map reg.getData).Nodup ∧
  ∀ T ∈ reg.getAllDerivedFrom reg.nodeClassTypeId, ∀ j < reg.getData T,
    ∃ T' ∈ reg.getAllDerivedFrom reg.nodeClassTypeId, reg.getData T' = j

/-! ### A small registry and its action methods

The node types `Shape` (the node class itself), `Circle`, `Square` and
`Triangle`, each derived from `Shape`, with the indices 0 to 3. -/

/-- The type `Shape`, standing for the node class. -/
def Shape : SoType := 0

/-- The type `Circle`. -/
def Circle : SoType := 1

/-- The type `Square`. -/
def Square : SoType := 2

/-- The type `Triangle`. -/
def Triangle : SoType := 3

/-- The registry holding `Shape`, `Circle`, `Square` and `Triangle`. -/
def shapes : SoTypeRegistry :=
  { getNumTypes := 4
    getData := fun t => t
    getAllDerivedFrom := fun t => if t = 0 then [0, 1, 2, 3] else [t]
    nodeClassTypeId := Shape }

/-- An action method for any shape. -/
def renderGeneric : SoActionMethod := SoActionMethod.method 1

/-- An action method for circles. -/
def renderCircle : SoActionMethod := SoActionMethod.method 2

/-- An action method for squares. -/
def renderSquareFast : SoActionMethod := SoActionMethod.method 3

/-- A type that is not a node type (a field type, say), with the index 4. -/
def Field : SoType := 4

/-- The registry of the shapes with the type `Field` beside them. -/
def shapesAndField : SoTypeRegistry :=
  { getNumTypes := 5
    getData := fun t => t
    getAllDerivedFrom := fun t => if t = 0 then [0, 1, 2, 3] else [t]
    nodeClassTypeId := Shape }

/-- A node type added later: `Hexagon`, derived from `Shape`, with the index 4. -/
def Hexagon : SoType := 4

/-- The registry of the shapes after `Hexagon` was added to it. -/
def shapesGrown : SoTypeRegistry :=
  { getNumTypes := 5
    getData := fun t => t
    getAllDerivedFrom := fun t => if t = 0 then [0, 1, 2, 3, 4] else [t]
    nodeClassTypeId := Shape }

/-- The registrations `regs` leave the entry of `D` to the parent or to the
default: the last registration covering `D`, if there is one, registered `NULL`
or `nullAction`. -/
def localDefault (reg : SoTypeRegistry) (regs : List (SoType × SoActionMethod))
    (D : SoType) : Prop :=
  ∀ (pre post : List (SoType × SoActionMethod)) (A : SoType) (m : SoActionMethod),
    regs = pre ++ (A, m) :: post → covers reg A D → (∀ r ∈ post, ¬ covers reg r.1 D) →
    m = SoActionMethod.NULL ∨ m = SoActionMethod.nullAction

/-- The call `addMethod(node, method)` on the list at position `this` of the
heap; a pointer outside the heap leaves the heap as it is. -/
def addMethodAt (h : Heap) (this : Nat) (node : SoType) (method : SoActionMethod) : Heap :=
  match h[this]? with
  | none => h
  | some o => h.set this (o.addMethod node method)

/-- Two lists that name each other as parent: the list at position 0 registers
`(Circle, renderCircle)`, the list at position 1 registers
`(Square, renderSquareFast)`. -/
def cyclicPair : Heap :=
  [registered (some 1) [(Circle, renderCircle)],
   registered (some 0) [(Square, renderSquareFast)]]

/-- Every parent pointer of the heap points into the heap. -/
def Heap.WF (h : Heap) : Prop :=
  ∀ o ∈ h, ∀ p, o.parent = some p → p < h.length

instance (h : Heap) : Decidable h.WF :=
  decidable_of_iff (∀ o ∈ h, ∀ p ∈ o.parent, p < h.length)
    ⟨fun H o ho p hp => H o ho p hp, fun H o ho p hp => H o ho p hp⟩


/-! ## The pointer list: reads, growth and assignment -/

theorem item_eq_of_getElem? {l : List SoActionMethod} {i : Nat} {m : SoActionMethod}
    (h : l[i]? = some m) : item l i = m := by
  simp [item, List.getD_eq_getElem?_getD, h]

theorem item_of_lt {l : List SoActionMethod} {i : Nat} (h : i < l.length) :
    l[i]? = some (item l i) := by
  simp [item, List.getD_eq_getElem?_getD, List.getElem?_eq_getElem h]

theorem item_of_le {l : List SoActionMethod} {i : Nat} (h : l.length ≤ i) :
    item l i = SoActionMethod.NULL := by
  simp [item, List.getD_eq_getElem?_getD, List.getElem?_eq_none h]

theorem length_expandlist (l : List SoActionMethod) (n : Nat) :
    (expandlist l n).length = max l.length n := by
  simp [expandlist]; omega

theorem item_expandlist (l : List SoActionMethod) (n j : Nat) :
    item (expandlist l n) j = item l j := by
  by_cases hj : j < l.length
  · simp [item, expandlist, List.getD_eq_getElem?_getD, List.getElem?_append_left hj]
  · have hj' : l.length ≤ j := Nat.le_of_not_lt hj
    rw [item_of_le hj']
    simp only [item, expandlist, List.getD_eq_getElem?_getD,
      List.getElem?_append_right hj']
    by_cases hk : j - l.length < n - l.length
    · simp [List.getElem?_replicate, hk]
    · simp [List.getElem?_replicate, hk]

theorem length_touch (l : List SoActionMethod) (i : Nat) :
    (touch l i).length = max l.length (i + 1) := by
  unfold touch
  split
  · omega
  · rw [length_expandlist]

theorem item_touch (l : List SoActionMethod) (i j : Nat) :
    item (touch l i) j = item l j := by
  unfold touch
  split
  · rfl
  · exact item_expandlist l (i + 1) j

theorem length_assign (l : List SoActionMethod) (i : Nat) (m : SoActionMethod) :
    (assign l i m).length = max l.length (i + 1) := by
  simp [assign, length_touch]

theorem item_assign (l : List SoActionMethod) (i j : Nat) (m : SoActionMethod) :
    item (assign l i m) j = if j = i then m else item l j := by
  have hlen : i < (touch l i).length := by rw [length_touch]; omega
  by_cases hji : j = i
  · subst hji
    simp [item, assign, List.getD_eq_getElem?_getD, List.getElem?_set, hlen]
  · have hne : ¬ i = j := fun h => hji h.symm
    have := item_touch l i j
    simp only [item, List.getD_eq_getElem?_getD] at this
    simp [item, assign, List.getD_eq_getElem?_getD, List.getElem?_set, hne, hji, this]


/-! ## Replaying the registrations -/

theorem length_foldl_assign (f : SoType → Nat) (m : SoActionMethod) (ds : List SoType)
    (t0 : List SoActionMethod) :
    t0.length ≤ (ds.foldl (fun t d => assign t (f d) m) t0).length := by
  induction ds generalizing t0 with
  | nil => simp
  | cons d ds ih =>
    simp only [List.foldl_cons]
    refine le_trans ?_ (ih _)
    rw [length_assign]; omega

theorem lt_length_foldl_assign (f : SoType → Nat) (m : SoActionMethod) (ds : List SoType)
    (t0 : List SoActionMethod) (d : SoType) (hd : d ∈ ds) :
    f d < (ds.foldl (fun t d => assign t (f d) m) t0).length := by
  induction ds generalizing t0 with
  | nil => simp at hd
  | cons e ds ih =>
    simp only [List.foldl_cons]
    rcases List.mem_cons.1 hd with h | h
    · subst h
      refine lt_of_lt_of_le ?_ (length_foldl_assign f m ds _)
      rw [length_assign]; omega
    · exact ih _ h

theorem item_foldl_assign_of_mem (f : SoType → Nat) (m : SoActionMethod) (ds : List SoType)
    (t0 : List SoActionMethod) (j : Nat) (hj : ∃ d ∈ ds, f d = j) :
    item (ds.foldl (fun t d => assign t (f d) m) t0) j = m := by
  induction ds generalizing t0 with
  | nil => simp at hj
  | cons e ds ih =>
    simp only [List.foldl_cons]
    by_cases hrest : ∃ d ∈ ds, f d = j
    · exact ih _ hrest
    · obtain ⟨d, hd, hdj⟩ := hj
      rcases List.mem_cons.1 hd with h | h
      · subst h
        have key : ∀ (t : List SoActionMethod), item t j = m →
            item (ds.foldl (fun t d => assign t (f d) m) t) j = m := by
          intro t ht
          clear ih hd
          induction ds generalizing t with
          | nil => simpa using ht
          | cons e2 ds ih2 =>
            simp only [List.foldl_cons]
            apply ih2
            · intro ⟨x, hx, hxj⟩
              exact hrest ⟨x, List.mem_cons_of_mem _ hx, hxj⟩
            · rw [item_assign]; split <;> simp [ht]
        apply key
        rw [item_assign, if_pos hdj.symm]
      · exact absurd ⟨d, h, hdj⟩ hrest

theorem item_foldl_assign_of_not_mem (f : SoType → Nat) (m : SoActionMethod)
    (ds : List SoType) (t0 : List SoActionMethod) (j : Nat) (hj : ¬ ∃ d ∈ ds, f d = j) :
    item (ds.foldl (fun t d => assign t (f d) m) t0) j = item t0 j := by
  induction ds generalizing t0 with
  | nil => simp
  | cons e ds ih =>
    simp only [List.foldl_cons]
    rw [ih]
    · rw [item_assign, if_neg]
      intro h
      exact hj ⟨e, List.mem_cons_self _ _, h.symm⟩
    · intro ⟨x, hx, hxj⟩
      exact hj ⟨x, List.mem_cons_of_mem _ hx, hxj⟩

theorem length_replayOne (reg : SoTypeRegistry) (tbl : List SoActionMethod)
    (r : SoType × SoActionMethod) : tbl.length ≤ (replayOne reg tbl r).length := by
  unfold replayOne
  refine le_trans ?_ (length_foldl_assign _ _ _ _)
  rw [length_assign]; omega

theorem lt_length_replayOne (reg : SoTypeRegistry) (tbl : List SoActionMethod)
    (r : SoType × SoActionMethod) (j : Nat) (hj : writes reg r.1 j) :
    j < (replayOne reg tbl r).length := by
  unfold replayOne
  rcases hj with h | ⟨d, hd, hdj⟩
  · refine lt_of_lt_of_le ?_ (length_foldl_assign _ _ _ _)
    rw [length_assign]; omega
  · rw [← hdj]
    exact lt_length_foldl_assign reg.getData r.2 _ _ d hd

theorem item_replayOne_of_writes (reg : SoTypeRegistry) (tbl : List SoActionMethod)
    (r : SoType × SoActionMethod) (j : Nat) (hj : writes reg r.1 j) :
    item (replayOne reg tbl r) j = r.2 := by
  unfold replayOne
  by_cases hd : ∃ d ∈ reg.getAllDerivedFrom r.1, reg.getData d = j
  · exact item_foldl_assign_of_mem reg.getData r.2 _ _ j hd
  · rw [item_foldl_assign_of_not_mem reg.getData r.2 _ _ j hd]
    rcases hj with h | h
    · rw [item_assign, if_pos h]
    · exact absurd h hd

theorem item_replayOne_of_not_writes (reg : SoTypeRegistry) (tbl : List SoActionMethod)
    (r : SoType × SoActionMethod) (j : Nat) (hj : ¬ writes reg r.1 j) :
    item (replayOne reg tbl r) j = item tbl j := by
  unfold replayOne
  rw [item_foldl_assign_of_not_mem reg.getData r.2 _ _ j (fun h => hj (Or.inr h))]
  rw [item_assign, if_neg (fun h => hj (Or.inl h))]

theorem length_foldl_replayOne (reg : SoTypeRegistry) (regs : List (SoType × SoActionMethod))
    (tbl : List SoActionMethod) : tbl.length ≤ (regs.foldl (replayOne reg) tbl).length := by
  induction regs generalizing tbl with
  | nil => simp
  | cons r rs ih =>
    simp only [List.foldl_cons]
    exact le_trans (length_replayOne reg tbl r) (ih _)

theorem item_foldl_replayOne_of_not_writes (reg : SoTypeRegistry)
    (regs : List (SoType × SoActionMethod)) (tbl : List SoActionMethod) (j : Nat)
    (hj : ∀ r ∈ regs, ¬ writes reg r.1 j) :
    item (regs.foldl (replayOne reg) tbl) j = item tbl j := by
  induction regs generalizing tbl with
  | nil => simp
  | cons r rs ih =>
    simp only [List.foldl_cons]
    rw [ih _ (fun x hx => hj x (List.mem_cons_of_mem _ hx))]
    exact item_replayOne_of_not_writes reg tbl r j (hj r (List.mem_cons_self _ _))

/-- The slot `j` after the replay holds the method of the last registration that
writes it, and lies inside the list. -/
theorem item_replay_last (reg : SoTypeRegistry)
    (pre post : List (SoType × SoActionMethod)) (r : SoType × SoActionMethod) (j : Nat)
    (hr : writes reg r.1 j) (hpost : ∀ x ∈ post, ¬ writes reg x.1 j) :
    item (replay reg (pre ++ r :: post)) j = r.2 ∧
      j < (replay reg (pre ++ r :: post)).length := by
  unfold replay
  rw [List.foldl_append, List.foldl_cons]
  constructor
  · rw [item_foldl_replayOne_of_not_writes reg post _ j hpost]
    exact item_replayOne_of_writes reg _ r j hr
  · exact lt_of_lt_of_le (lt_length_replayOne reg _ r j hr)
      (length_foldl_replayOne reg post _)

/-- A slot no registration writes is `NULL` or outside the list after the replay. -/
theorem item_replay_none (reg : SoTypeRegistry) (regs : List (SoType × SoActionMethod))
    (j : Nat) (hj : ∀ r ∈ regs, ¬ writes reg r.1 j) :
    item (replay reg regs) j = SoActionMethod.NULL := by
  unfold replay
  rw [item_foldl_replayOne_of_not_writes reg regs [] j hj]
  rfl

/-! ## The two default passes and the rebuilt table -/

theorem length_fillNull (tbl : List SoActionMethod) : (fillNull tbl).length = tbl.length := by
  simp [fillNull]

theorem item_fillNull (tbl : List SoActionMethod) (j : Nat) (hj : j < tbl.length) :
    item (fillNull tbl) j = stored (item tbl j) := by
  simp [item, fillNull, stored, List.getD_eq_getElem?_getD, List.getElem?_map,
    List.getElem?_eq_getElem hj]

theorem length_padNull (tbl : List SoActionMethod) (n : Nat) :
    (padNull tbl n).length = max tbl.length n := by
  simp [padNull]; omega

theorem item_padNull_lt (tbl : List SoActionMethod) (n j : Nat) (hj : j < tbl.length) :
    item (padNull tbl n) j = item tbl j := by
  simp [item, padNull, List.getD_eq_getElem?_getD, List.getElem?_append_left hj]

theorem item_padNull_ge (tbl : List SoActionMethod) (n j : Nat) (hj : tbl.length ≤ j)
    (hn : j < n) : item (padNull tbl n) j = SoActionMethod.nullAction := by
  have hk : j - tbl.length < n - tbl.length := by omega
  simp [item, padNull, List.getD_eq_getElem?_getD, List.getElem?_append_right hj,
    List.getElem?_replicate, hk]


theorem stored_ne_NULL (m : SoActionMethod) : stored m ≠ SoActionMethod.NULL := by
  unfold stored
  split
  · simp
  · assumption

theorem stored_of_ne_NULL {m : SoActionMethod} (h : m ≠ SoActionMethod.NULL) :
    stored m = m := by
  simp [stored, h]

theorem count_le_length_localTable (reg : SoTypeRegistry) (o : SoActionMethodList) :
    (reg.getAllDerivedFrom reg.nodeClassTypeId).length ≤ (localTable reg o).length := by
  unfold localTable
  rw [length_padNull]; omega

theorem localTable_ne_NULL (reg : SoTypeRegistry) (o : SoActionMethodList)
    (m : SoActionMethod) (hm : m ∈ localTable reg o) : m ≠ SoActionMethod.NULL := by
  unfold localTable padNull fillNull at hm
  rcases List.mem_append.1 hm with h | h
  · obtain ⟨x, _, hx⟩ := List.mem_map.1 h
    rw [← hx]
    exact stored_ne_NULL x
  · rw [(List.mem_replicate.1 h).2]
    simp

theorem localTable_last (reg : SoTypeRegistry) (o : SoActionMethodList)
    (pre post : List (SoType × SoActionMethod)) (r : SoType × SoActionMethod) (j : Nat)
    (hregs : o.addedtypes.zip o.addedmethods = pre ++ r :: post)
    (hr : writes reg r.1 j) (hpost : ∀ x ∈ post, ¬ writes reg x.1 j) :
    (localTable reg o)[j]? = some (stored r.2) := by
  obtain ⟨hitem, hlt⟩ := item_replay_last reg pre post r j hr hpost
  have hlt2 : j < (fillNull (replay reg (pre ++ r :: post))).length := by
    rw [length_fillNull]; exact hlt
  have hlen : j < (localTable reg o).length := by
    unfold localTable
    rw [hregs, length_padNull]
    omega
  rw [item_of_lt hlen]
  unfold localTable
  rw [hregs, item_padNull_lt _ _ _ hlt2, item_fillNull _ _ hlt, hitem]

theorem localTable_none (reg : SoTypeRegistry) (o : SoActionMethodList) (j : Nat)
    (hj : ∀ r ∈ o.addedtypes.zip o.addedmethods, ¬ writes reg r.1 j)
    (hlen : j < (localTable reg o).length) :
    (localTable reg o)[j]? = some SoActionMethod.nullAction := by
  rw [item_of_lt hlen]
  have hnull := item_replay_none reg _ j hj
  unfold localTable at hlen ⊢
  by_cases hlt : j < (replay reg (o.addedtypes.zip o.addedmethods)).length
  · have hlt2 : j < (fillNull (replay reg (o.addedtypes.zip o.addedmethods))).length := by
      rw [length_fillNull]; exact hlt
    rw [item_padNull_lt _ _ _ hlt2, item_fillNull _ _ hlt, hnull]
    rfl
  · rw [length_padNull, length_fillNull] at hlen
    rw [item_padNull_ge]
    · rw [length_fillNull]; omega
    · omega

/-! ## Copying from the parent -/

theorem fillFromParent_aux (tbl par : List SoActionMethod) (k : Nat) :
    ((List.range k).foldl (fillStep par) tbl).length = max tbl.length k ∧
    ∀ j, item ((List.range k).foldl (fillStep par) tbl) j =
      if j < k ∧ item tbl j = SoActionMethod.nullAction then item par j else item tbl j := by
  induction k with
  | zero => simp
  | succ k ih =>
    obtain ⟨ihlen, ihitem⟩ := ih
    rw [List.range_succ, List.foldl_append]
    simp only [List.foldl_cons, List.foldl_nil]
    have hk : item ((List.range k).foldl (fillStep par) tbl) k = item tbl k := by
      rw [ihitem k]; simp
    generalize (List.range k).foldl (fillStep par) tbl = t at ihlen ihitem hk
    have hstep : fillStep par t k =
        if item tbl k = SoActionMethod.nullAction then assign t k (item par k)
        else touch t k := by
      simp only [fillStep, hk]
    rw [hstep]
    by_cases hnull : item tbl k = SoActionMethod.nullAction
    · rw [if_pos hnull]
      constructor
      · rw [length_assign, ihlen]; omega
      · intro j
        rw [item_assign, ihitem j]
        by_cases hjk : j = k
        · subst hjk; simp [hnull]
        · rw [if_neg hjk]
          by_cases hc : item tbl j = SoActionMethod.nullAction
          · have e : (j < k) = (j < k + 1) := by
              apply propext; constructor <;> intro h <;> omega
            simp [hc, e]
          · simp [hc]
    · rw [if_neg hnull]
      constructor
      · rw [length_touch, ihlen]; omega
      · intro j
        rw [item_touch, ihitem j]
        by_cases hjk : j = k
        · subst hjk; simp [hnull]
        · by_cases hc : item tbl j = SoActionMethod.nullAction
          · have e : (j < k) = (j < k + 1) := by
              apply propext; constructor <;> intro h <;> omega
            simp [hc, e]
          · simp [hc]

theorem length_fillFromParent (tbl par : List SoActionMethod) :
    (fillFromParent tbl par).length = max tbl.length par.length :=
  (fillFromParent_aux tbl par par.length).1

theorem item_fillFromParent (tbl par : List SoActionMethod) (j : Nat) :
    item (fillFromParent tbl par) j =
      if j < par.length ∧ item tbl j = SoActionMethod.nullAction then item par j
      else item tbl j :=
  (fillFromParent_aux tbl par par.length).2 j

/-- A slot holding a method other than `nullAction` is kept by the copy. -/
theorem fillFromParent_keep (tbl par : List SoActionMethod) (j : Nat) (m : SoActionMethod)
    (hj : tbl[j]? = some m) (hm : m ≠ SoActionMethod.nullAction) :
    (fillFromParent tbl par)[j]? = some m := by
  have hlt : j < tbl.length := by
    by_contra hge
    rw [List.getElem?_eq_none (Nat.le_of_not_lt hge)] at hj
    cases hj
  have hlen : j < (fillFromParent tbl par).length := by
    rw [length_fillFromParent]; omega
  rw [item_of_lt hlen, item_fillFromParent, item_eq_of_getElem? hj]
  simp [hm]

/-- A slot holding `nullAction` takes the entry the parent has at that index. -/
theorem fillFromParent_take (tbl par : List SoActionMethod) (j : Nat) (a : SoActionMethod)
    (hj : tbl[j]? = some SoActionMethod.nullAction) (hp : par[j]? = some a) :
    (fillFromParent tbl par)[j]? = some a := by
  have hlt : j < par.length := by
    by_contra hge
    rw [List.getElem?_eq_none (Nat.le_of_not_lt hge)] at hp
    cases hp
  have hlen : j < (fillFromParent tbl par).length := by
    rw [length_fillFromParent]; omega
  rw [item_of_lt hlen, item_fillFromParent, item_eq_of_getElem? hj, item_eq_of_getElem? hp]
  simp [hlt]

/-- A slot holding `nullAction` beyond the parent's list is kept. -/
theorem fillFromParent_beyond (tbl par : List SoActionMethod) (j : Nat) (m : SoActionMethod)
    (hj : tbl[j]? = some m) (hp : par.length ≤ j) :
    (fillFromParent tbl par)[j]? = some m := by
  have hlt : j < tbl.length := by
    by_contra hge
    rw [List.getElem?_eq_none (Nat.le_of_not_lt hge)] at hj
    cases hj
  have hlen : j < (fillFromParent tbl par).length := by
    rw [length_fillFromParent]; omega
  rw [item_of_lt hlen, item_fillFromParent, item_eq_of_getElem? hj]
  have : ¬ j < par.length := by omega
  simp [this]


/-! ## `setUp` on the heap -/

theorem evolves_refl (reg : SoTypeRegistry) (h : Heap) : Evolves reg h h :=
  ⟨rfl, fun _ o ho => ⟨o, ho, rfl, rfl, rfl, fun _ => rfl⟩⟩

theorem evolves_trans {reg : SoTypeRegistry} {h1 h2 h3 : Heap}
    (h12 : Evolves reg h1 h2) (h23 : Evolves reg h2 h3) : Evolves reg h1 h3 := by
  refine ⟨h23.1.trans h12.1, fun i o ho => ?_⟩
  obtain ⟨o2, ho2, hp2, ht2, hm2, hf2⟩ := h12.2 i o ho
  obtain ⟨o3, ho3, hp3, ht3, hm3, hf3⟩ := h23.2 i o2 ho2
  refine ⟨o3, ho3, hp3.trans hp2, ht3.trans ht2, hm3.trans hm2, fun hfresh => ?_⟩
  have e2 : o2 = o := hf2 hfresh
  subst e2
  exact hf3 hfresh

/-- Overwriting an object whose marker is out of date, keeping its parent pointer
and its registrations, is an evolution of the heap. -/
theorem evolves_set {reg : SoTypeRegistry} {h : Heap} {t : Nat}
    {o o1 : SoActionMethodList} (ho : h[t]? = some o)
    (hstale : o.setupnumtypes ≠ reg.getNumTypes) (hp : o1.parent = o.parent)
    (ht : o1.addedtypes = o.addedtypes) (hm : o1.addedmethods = o.addedmethods) :
    Evolves reg h (h.set t o1) := by
  refine ⟨by simp, fun i x hx => ?_⟩
  by_cases hit : t = i
  · subst hit
    have hlt : t < h.length := by
      by_contra hge
      rw [List.getElem?_eq_none (Nat.le_of_not_lt hge)] at ho
      cases ho
    have ex : x = o := by rw [ho] at hx; exact (Option.some.inj hx).symm
    subst ex
    exact ⟨o1, by simp [List.getElem?_set, hlt], hp, ht, hm, fun hf => absurd hf hstale⟩
  · exact ⟨x, by simp [List.getElem?_set, hit, hx], rfl, rfl, rfl, fun _ => rfl⟩

theorem getElem?_lt {h : Heap} {t : Nat} {o : SoActionMethodList} (ho : h[t]? = some o) :
    t < h.length := by
  by_contra hge
  rw [List.getElem?_eq_none (Nat.le_of_not_lt hge)] at ho
  cases ho

/-- The unfolding of `setUp` on an object whose marker is up to date. -/
theorem setUpAux_fresh (reg : SoTypeRegistry) (fuel : Nat) (h : Heap) (t : Nat)
    (o : SoActionMethodList) (ho : h[t]? = some o)
    (hfresh : o.setupnumtypes = reg.getNumTypes) :
    setUpAux reg (fuel + 1) h t = some h := by
  simp [setUpAux, ho, hfresh]

/-- The unfolding of `setUp` on an object without parent whose marker is out of
date. -/
theorem setUpAux_stale_root (reg : SoTypeRegistry) (fuel : Nat) (h : Heap) (t : Nat)
    (o : SoActionMethodList) (ho : h[t]? = some o)
    (hstale : o.setupnumtypes ≠ reg.getNumTypes) (hp : o.parent = none) :
    setUpAux reg (fuel + 1) h t = some (h.set t (rebuilt reg o)) := by
  simp [setUpAux, ho, hstale, hp]

theorem setUpAux_evolves (reg : SoTypeRegistry) (fuel : Nat) (h : Heap) (t : Nat)
    (h' : Heap) (hs : setUpAux reg fuel h t = some h') : Evolves reg h h' := by
  induction fuel generalizing h t h' with
  | zero => simp [setUpAux] at hs
  | succ fuel ih =>
    cases ho : h[t]? with
    | none => simp [setUpAux, ho] at hs
    | some o =>
      by_cases hfresh : o.setupnumtypes = reg.getNumTypes
      · rw [setUpAux_fresh reg fuel h t o ho hfresh] at hs
        cases hs
        exact evolves_refl reg h
      · have e1 : Evolves reg h (h.set t (rebuilt reg o)) :=
          evolves_set ho hfresh rfl rfl rfl
        cases hp : o.parent with
        | none =>
          rw [setUpAux_stale_root reg fuel h t o ho hfresh hp] at hs
          cases hs
          exact e1
        | some p =>
          simp only [setUpAux, ho, hfresh, hp, ne_eq, not_false_eq_true, if_true] at hs
          cases h2e : setUpAux reg fuel (h.set t (rebuilt reg o)) p with
          | none => simp [h2e] at hs
          | some h2 =>
            rw [h2e] at hs
            have e2 := ih _ _ _ h2e
            have e12 := evolves_trans e1 e2
            cases h2t : h2[t]? with
            | none => simp [h2t] at hs
            | some o2 =>
              cases h2p : h2[p]? with
              | none => simp [h2t, h2p] at hs
              | some po =>
                simp only [h2t, h2p, Option.some.injEq] at hs
                subst hs
                obtain ⟨o2', ho2', hp2, ht2, hm2, _⟩ := e12.2 t o ho
                have eo : o2 = o2' := by
                  rw [h2t] at ho2'; exact Option.some.inj ho2'
                subst eo
                refine ⟨by simpa using e12.1, fun i x hx => ?_⟩
                by_cases hit : t = i
                · subst hit
                  have ex : x = o := by rw [ho] at hx; exact (Option.some.inj hx).symm
                  subst ex
                  exact ⟨{ o2 with items := fillFromParent o2.items po.items },
                    by simp [List.getElem?_set, getElem?_lt h2t], hp2, ht2, hm2,
                    fun hf => absurd hf hfresh⟩
                · obtain ⟨x', hx', r⟩ := e12.2 i x hx
                  exact ⟨x', by simp [List.getElem?_set, hit, hx'], r⟩


/-- The unfolding of `setUp` on an object with a parent whose marker is out of
date: the object is rebuilt from its registrations, `setUp` runs on the parent
(and leaves the object alone, its marker being up to date by then), and the
object's table takes the parent's entries. -/
theorem setUpAux_stale_parent (reg : SoTypeRegistry) (fuel : Nat) (h : Heap) (t p : Nat)
    (o : SoActionMethodList) (h' : Heap) (ho : h[t]? = some o)
    (hstale : o.setupnumtypes ≠ reg.getNumTypes) (hp : o.parent = some p)
    (hs : setUpAux reg (fuel + 1) h t = some h') :
    ∃ h2 po, setUpAux reg fuel (h.set t (rebuilt reg o)) p = some h2 ∧
      h2[t]? = some (rebuilt reg o) ∧ h2[p]? = some po ∧
      h' = h2.set t
        { rebuilt reg o with items := fillFromParent (localTable reg o) po.items } := by
  simp only [setUpAux, ho, hstale, hp, ne_eq, not_false_eq_true, if_true] at hs
  cases h2e : setUpAux reg fuel (h.set t (rebuilt reg o)) p with
  | none => simp [h2e] at hs
  | some h2 =>
    rw [h2e] at hs
    have e2 := setUpAux_evolves reg fuel _ p h2 h2e
    have h1t : (h.set t (rebuilt reg o))[t]? = some (rebuilt reg o) := by
      simp [List.getElem?_set, getElem?_lt ho]
    obtain ⟨o2, ho2, _, _, _, hf⟩ := e2.2 t _ h1t
    have eo : o2 = rebuilt reg o := hf rfl
    subst eo
    cases h2p : h2[p]? with
    | none => simp [ho2, h2p] at hs
    | some po =>
      simp only [ho2, h2p, Option.some.injEq] at hs
      exact ⟨h2, po, rfl, ho2, h2p, hs.symm⟩

/-- After `setUp` the marker of the object is the current number of types. -/
theorem setUpAux_marker (reg : SoTypeRegistry) (fuel : Nat) (h : Heap) (t : Nat)
    (h' : Heap) (hs : setUpAux reg fuel h t = some h') :
    ∃ o', h'[t]? = some o' ∧ o'.setupnumtypes = reg.getNumTypes := by
  cases fuel with
  | zero => simp [setUpAux] at hs
  | succ fuel =>
    cases ho : h[t]? with
    | none => simp [setUpAux, ho] at hs
    | some o =>
      by_cases hfresh : o.setupnumtypes = reg.getNumTypes
      · rw [setUpAux_fresh reg fuel h t o ho hfresh] at hs
        cases hs
        exact ⟨o, ho, hfresh⟩
      · cases hp : o.parent with
        | none =>
          rw [setUpAux_stale_root reg fuel h t o ho hfresh hp] at hs
          cases hs
          exact ⟨rebuilt reg o, by simp [List.getElem?_set, getElem?_lt ho], rfl⟩
        | some p =>
          obtain ⟨h2, po, _, h2t, _, e⟩ :=
            setUpAux_stale_parent reg fuel h t p o h' ho hfresh hp hs
          subst e
          exact ⟨{ rebuilt reg o with items := fillFromParent (localTable reg o) po.items },
            by simp [List.getElem?_set, getElem?_lt h2t], rfl⟩

theorem staleCount_set (reg : SoTypeRegistry) (h : Heap) (t : Nat)
    (o o1 : SoActionMethodList) (ho : h[t]? = some o)
    (hstale : o.setupnumtypes ≠ reg.getNumTypes)
    (hfresh : o1.setupnumtypes = reg.getNumTypes) :
    staleCount reg (h.set t o1) + 1 = staleCount reg h := by
  induction h generalizing t with
  | nil => simp at ho
  | cons x xs ih =>
    cases t with
    | zero =>
      simp only [List.getElem?_cons_zero, Option.some.injEq] at ho
      subst ho
      simp [staleCount, List.countP_cons, hstale, hfresh]
    | succ t =>
      simp only [List.getElem?_cons_succ] at ho
      have := ih t ho
      simp only [staleCount, List.set_cons_succ, List.countP_cons] at this ⊢
      omega

theorem staleCount_le_length (reg : SoTypeRegistry) (h : Heap) :
    staleCount reg h ≤ h.length :=
  List.countP_le_length _

theorem wf_set {h : Heap} (hwf : h.WF) {t : Nat} {o o1 : SoActionMethodList}
    (ho : h[t]? = some o) (hp : o1.parent = o.parent) : Heap.WF (h.set t o1) := by
  intro x hx p hxp
  rw [List.length_set]
  rcases List.mem_or_eq_of_mem_set hx with hm | he
  · exact hwf x hm p hxp
  · subst he
    exact hwf o (List.getElem?_mem ho) p (hp ▸ hxp)

theorem evolves_wf {reg : SoTypeRegistry} {h h' : Heap} (e : Evolves reg h h')
    (hwf : h.WF) : h'.WF := by
  intro x hx p hxp
  obtain ⟨i, hi, hix⟩ := List.getElem_of_mem hx
  have hi' : i < h.length := e.1 ▸ hi
  obtain ⟨o', ho', hpar, _⟩ := e.2 i h[i] (List.getElem?_eq_getElem hi')
  rw [List.getElem?_eq_getElem hi, hix] at ho'
  have : x = o' := Option.some.inj ho'
  subst this
  rw [e.1]
  exact hwf h[i] (List.getElem_mem _) p (hpar ▸ hxp)

/-- The run of `setUp` ends: with more fuel than there are objects whose marker
is out of date, on a heap whose pointers stay inside it, `setUp` returns. -/
theorem setUpAux_total (reg : SoTypeRegistry) (fuel : Nat) (h : Heap) (t : Nat)
    (hwf : h.WF) (ht : t < h.length) (hfuel : staleCount reg h < fuel) :
    ∃ h', setUpAux reg fuel h t = some h' := by
  induction fuel generalizing h t with
  | zero => omega
  | succ fuel ih =>
    have ho : h[t]? = some h[t] := List.getElem?_eq_getElem ht
    by_cases hfresh : h[t].setupnumtypes = reg.getNumTypes
    · exact ⟨h, setUpAux_fresh reg fuel h t _ ho hfresh⟩
    · cases hp : h[t].parent with
      | none => exact ⟨_, setUpAux_stale_root reg fuel h t _ ho hfresh hp⟩
      | some p =>
        have hcount := staleCount_set reg h t h[t] (rebuilt reg h[t]) ho hfresh rfl
        have hwf1 : Heap.WF (h.set t (rebuilt reg h[t])) := wf_set hwf ho rfl
        have hp1 : p < (h.set t (rebuilt reg h[t])).length := by
          rw [List.length_set]
          exact hwf h[t] (List.getElem_mem _) p hp
        obtain ⟨h2, h2e⟩ := ih _ p hwf1 hp1 (by omega)
        have e2 := setUpAux_evolves reg fuel _ p h2 h2e
        have hlen : h2.length = h.length := by simpa using e2.1
        have ht2 : t < h2.length := hlen ▸ ht
        have hp2 : p < h2.length := by rw [hlen]; simpa using hp1
        refine ⟨h2.set t { h2[t] with items := fillFromParent h2[t].items h2[p].items }, ?_⟩
        simp only [setUpAux, ho, hfresh, hp, ne_eq, not_false_eq_true, if_true, h2e]
        rw [List.getElem?_eq_getElem ht2, List.getElem?_eq_getElem hp2]

theorem setUp_total (reg : SoTypeRegistry) (h : Heap) (t : Nat)
    (hwf : h.WF) (ht : t < h.length) : ∃ h', setUp reg h t = some h' :=
  setUpAux_total reg _ h t hwf ht (Nat.lt_succ_of_le (staleCount_le_length reg h))


/-! ## The registry and the registrations -/

/-- With dense indices every node type has an index below the number of node
types. -/
theorem dense_lt_count {reg : SoTypeRegistry} (hd : DenseNodeIds reg)
    {T : SoType} (hT : T ∈ reg.getAllDerivedFrom reg.nodeClassTypeId) :
    reg.getData T < (reg.getAllDerivedFrom reg.nodeClassTypeId).length := by
  obtain ⟨hnodup, hgap⟩ := hd
  have hcard : ((reg.getAllDerivedFrom reg.nodeClassTypeId).map reg.getData).toFinset.card
      = (reg.getAllDerivedFrom reg.nodeClassTypeId).length := by
    rw [List.toFinset_card_of_nodup hnodup, List.length_map]
  have hsub : Finset.range (reg.getData T + 1) ⊆
      ((reg.getAllDerivedFrom reg.nodeClassTypeId).map reg.getData).toFinset := by
    intro j hj
    rw [Finset.mem_range] at hj
    rw [List.mem_toFinset, List.mem_map]
    by_cases hjT : j = reg.getData T
    · exact ⟨T, hT, hjT.symm⟩
    · exact hgap T hT j (by omega)
  have := Finset.card_le_card hsub
  rw [Finset.card_range, hcard] at this
  omega

theorem writes_iff_covers {reg : SoTypeRegistry} (hu : UniqueIds reg) (A T : SoType) :
    writes reg A (reg.getData T) ↔ covers reg A T := by
  unfold writes covers
  constructor
  · rintro (h | ⟨d, hd, hdT⟩)
    · exact Or.inl (hu h).symm
    · exact Or.inr (hu hdT ▸ hd)
  · rintro (h | h)
    · exact Or.inl (h ▸ rfl)
    · exact Or.inr ⟨T, h, rfl⟩

theorem foldl_addMethod (regs : List (SoType × SoActionMethod)) (o : SoActionMethodList) :
    (regs.foldl (fun o r => o.addMethod r.1 r.2) o).items = o.items ∧
    (regs.foldl (fun o r => o.addMethod r.1 r.2) o).parent = o.parent ∧
    (regs.foldl (fun o r => o.addMethod r.1 r.2) o).addedtypes
      = o.addedtypes ++ regs.map Prod.fst ∧
    (regs.foldl (fun o r => o.addMethod r.1 r.2) o).addedmethods
      = o.addedmethods ++ regs.map Prod.snd ∧
    (o.setupnumtypes = 0 → (regs.foldl (fun o r => o.addMethod r.1 r.2) o).setupnumtypes = 0) := by
  induction regs generalizing o with
  | nil => simp
  | cons r rs ih =>
    obtain ⟨h1, h2, h3, h4, h5⟩ := ih (o.addMethod r.1 r.2)
    simp only [List.foldl_cons]
    refine ⟨h1, h2, ?_, ?_, fun _ => h5 rfl⟩
    · rw [h3]; simp [SoActionMethodList.addMethod]
    · rw [h4]; simp [SoActionMethodList.addMethod]

theorem registered_parent (par : Option Nat) (regs : List (SoType × SoActionMethod)) :
    (registered par regs).parent = par :=
  (foldl_addMethod regs _).2.1

theorem registered_marker (par : Option Nat) (regs : List (SoType × SoActionMethod)) :
    (registered par regs).setupnumtypes = 0 :=
  (foldl_addMethod regs _).2.2.2.2 rfl

theorem registered_zip (par : Option Nat) (regs : List (SoType × SoActionMethod)) :
    (registered par regs).addedtypes.zip (registered par regs).addedmethods = regs := by
  obtain ⟨_, _, h3, h4, _⟩ := foldl_addMethod regs (SoActionMethodList.new par)
  unfold registered
  rw [h3, h4]
  simp only [SoActionMethodList.new, List.nil_append]
  exact (List.zip_of_prod rfl rfl).symm

/-- `setUp` on an object without parent whose marker is out of date. -/
theorem setUp_stale_root (reg : SoTypeRegistry) (h : Heap) (t : Nat)
    (o : SoActionMethodList) (ho : h[t]? = some o)
    (hstale : o.setupnumtypes ≠ reg.getNumTypes) (hp : o.parent = none) :
    setUp reg h t = some (h.set t (rebuilt reg o)) :=
  setUpAux_stale_root reg h.length h t o ho hstale hp


theorem shapes_unique : UniqueIds shapes := fun _ _ h => h

theorem shapes_dense : DenseNodeIds shapes := by
  unfold DenseNodeIds
  decide

/-- `setUp` on an object without parent whose marker is out of date leaves the
table rebuilt from the object's registrations. -/
theorem setUp_root_items (reg : SoTypeRegistry) (h : Heap) (t : Nat)
    (o : SoActionMethodList) (ho : h[t]? = some o)
    (hstale : o.setupnumtypes ≠ reg.getNumTypes) (hp : o.parent = none) :
    ∃ h' o', setUp reg h t = some h' ∧ h'[t]? = some o' ∧
      o'.items = localTable reg o ∧ o'.setupnumtypes = reg.getNumTypes :=
  ⟨_, rebuilt reg o, setUp_stale_root reg h t o ho hstale hp,
    by simp [List.getElem?_set, getElem?_lt ho], rfl, rfl⟩

/-- On a list without parent a rebuild leaves no `NULL` slot. -/
theorem setUp_root_ne_NULL (reg : SoTypeRegistry) (h : Heap) (t : Nat)
    (o : SoActionMethodList) (ho : h[t]? = some o)
    (hstale : o.setupnumtypes ≠ reg.getNumTypes) (hp : o.parent = none) :
    ∃ h' o', setUp reg h t = some h' ∧ h'[t]? = some o' ∧
      ∀ m ∈ o'.items, m ≠ SoActionMethod.NULL := by
  obtain ⟨h', o', hs, ho', hitems, _⟩ := setUp_root_items reg h t o ho hstale hp
  exact ⟨h', o', hs, ho', fun m hm => localTable_ne_NULL reg o m (hitems ▸ hm)⟩

/-! ## The claims -/

/-- C1, amended: on a list without parent, in a registry that holds a type and
gives distinct types distinct indices, after `setUp` the entry at the index of a
type `T` is the method of the last `addMethod` call whose type is `T` or an
ancestor of `T`, however specific the earlier calls were; a `NULL` method is
stored as `nullAction`. -/
theorem setUp_last_covering_registration (reg : SoTypeRegistry) (h : Heap) (t : Nat)
    (regs pre post : List (SoType × SoActionMethod)) (A T : SoType) (m : SoActionMethod)
    (hnum : 0 < reg.getNumTypes) (hu : UniqueIds reg)
    (ho : h[t]? = some (registered none regs))
    (hregs : regs = pre ++ (A, m) :: post)
    (hA : covers reg A T) (hpost : ∀ r ∈ post, ¬ covers reg r.1 T) :
    ∃ h' o', setUp reg h t = some h' ∧ h'[t]? = some o' ∧
      o'.items[reg.getData T]? = some (stored m) := by
  have hstale : (registered none regs).setupnumtypes ≠ reg.getNumTypes := by
    rw [registered_marker]; omega
  obtain ⟨h', o', hs, ho', hitems, _⟩ :=
    setUp_root_items reg h t _ ho hstale (registered_parent none regs)
  refine ⟨h', o', hs, ho', ?_⟩
  rw [hitems]
  exact localTable_last reg _ pre post (A, m) _ (by rw [registered_zip, hregs])
    ((writes_iff_covers hu A T).2 hA)
    (fun x hx hw => hpost x hx ((writes_iff_covers hu x.1 T).1 hw))

/-- The ordering scenario of C1: `(Shape, renderGeneric)`, `(Circle, renderCircle)`,
then `(Shape, renderSquareFast)` leaves `Circle` with the last method. -/
theorem setUp_last_covering_registration_witness :
    ∃ h' o', setUp shapes [registered none
        [(Shape, renderGeneric), (Circle, renderCircle), (Shape, renderSquareFast)]] 0
        = some h' ∧ h'[0]? = some o' ∧
      o'.items[shapes.getData Circle]? = some (stored renderSquareFast) :=
  setUp_last_covering_registration shapes _ 0 _
    [(Shape, renderGeneric), (Circle, renderCircle)] [] Shape Circle renderSquareFast
    (by decide) shapes_unique rfl rfl (by decide) (by simp)

/-- C1 as stated fails on a `NULL` method: after `addMethod(Shape, NULL)` and
`setUp`, the entry of `Shape` is `nullAction`, not the registered `NULL`. -/
theorem setUp_registered_NULL_replaced :
    ∃ h' o', setUp shapes [registered none [(Shape, SoActionMethod.NULL)]] 0 = some h' ∧
      h'[0]? = some o' ∧
      o'.items[shapes.getData Shape]? = some SoActionMethod.nullAction ∧
      o'.items[shapes.getData Shape]? ≠ some SoActionMethod.NULL :=
  ⟨_, _, rfl, rfl, rfl, by decide⟩

/-- C4: on a list without parent, in a registry with unique, dense node indices,
a node type `T` that no `addMethod` call covers (none names `T` or an ancestor
of `T`) has the entry `SoAction::nullAction` after `setUp`. -/
theorem setUp_default_fallback (reg : SoTypeRegistry) (h : Heap) (t : Nat)
    (regs : List (SoType × SoActionMethod)) (T : SoType)
    (hnum : 0 < reg.getNumTypes) (hu : UniqueIds reg) (hd : DenseNodeIds reg)
    (ho : h[t]? = some (registered none regs))
    (hT : T ∈ reg.getAllDerivedFrom reg.nodeClassTypeId)
    (hnone : ∀ r ∈ regs, ¬ covers reg r.1 T) :
    ∃ h' o', setUp reg h t = some h' ∧ h'[t]? = some o' ∧
      o'.items[reg.getData T]? = some SoActionMethod.nullAction := by
  have hstale : (registered none regs).setupnumtypes ≠ reg.getNumTypes := by
    rw [registered_marker]; omega
  obtain ⟨h', o', hs, ho', hitems, _⟩ :=
    setUp_root_items reg h t _ ho hstale (registered_parent none regs)
  refine ⟨h', o', hs, ho', ?_⟩
  rw [hitems]
  refine localTable_none reg _ _ ?_ ?_
  · rw [registered_zip]
    exact fun r hr hw => hnone r hr ((writes_iff_covers hu r.1 T).1 hw)
  · exact lt_of_lt_of_le (dense_lt_count hd hT) (count_le_length_localTable reg _)

/-- The fallback of C4 on the shapes: only `Circle` is registered, `Triangle`
gets `nullAction`. -/
theorem setUp_default_fallback_witness :
    ∃ h' o', setUp shapes [registered none [(Circle, renderCircle)]] 0 = some h' ∧
      h'[0]? = some o' ∧
      o'.items[shapes.getData Triangle]? = some SoActionMethod.nullAction :=
  setUp_default_fallback shapes _ 0 [(Circle, renderCircle)] Triangle
    (by decide) shapes_unique shapes_dense rfl (by decide) (by decide)


/-- `setUp` on an object with a parent whose marker is out of date: the table is
the one rebuilt from the object's registrations, completed from the list `par`
the parent holds once its own `setUp` has run. -/
theorem setUp_child_items (reg : SoTypeRegistry) (h : Heap) (t p : Nat)
    (o : SoActionMethodList) (hwf : h.WF) (ho : h[t]? = some o)
    (hstale : o.setupnumtypes ≠ reg.getNumTypes) (hp : o.parent = some p) :
    ∃ h' o' par, setUp reg h t = some h' ∧ h'[t]? = some o' ∧
      o'.items = fillFromParent (localTable reg o) par ∧
      o'.setupnumtypes = reg.getNumTypes ∧
      (p ≠ t → ∃ po, h'[p]? = some po ∧ po.items = par) ∧
      (p = t → par = localTable reg o) := by
  obtain ⟨h', hs⟩ := setUp_total reg h t hwf (getElem?_lt ho)
  obtain ⟨h2, po, _, h2t, h2p, e⟩ :=
    setUpAux_stale_parent reg h.length h t p o h' ho hstale hp hs
  refine ⟨h', { rebuilt reg o with items := fillFromParent (localTable reg o) po.items },
    po.items, hs, ?_, rfl, rfl, ?_, ?_⟩
  · rw [e]; simp [List.getElem?_set, getElem?_lt h2t]
  · intro hne
    refine ⟨po, ?_, rfl⟩
    rw [e]; simp [List.getElem?_set, Ne.symm hne, h2p]
  · intro heq
    subst heq
    rw [h2t] at h2p
    rw [← Option.some.inj h2p]
    rfl

/-- C3, amended: a list with a parent, in a registry with unique indices. When the
last `addMethod` call on the list that covers `D` is `(D, B)` and `B` is neither
`NULL` nor `nullAction`, the list's entry at the index of `D` after `setUp` is
`B`, whatever the parent holds. -/
theorem setUp_local_override (reg : SoTypeRegistry) (h : Heap) (t p : Nat)
    (o : SoActionMethodList) (D : SoType) (B : SoActionMethod)
    (pre post : List (SoType × SoActionMethod))
    (hwf : h.WF) (hu : UniqueIds reg)
    (ho : h[t]? = some o) (hstale : o.setupnumtypes ≠ reg.getNumTypes)
    (hp : o.parent = some p)
    (hregs : o.addedtypes.zip o.addedmethods = pre ++ (D, B) :: post)
    (hpost : ∀ r ∈ post, ¬ covers reg r.1 D)
    (hB : B ≠ SoActionMethod.NULL) (hB' : B ≠ SoActionMethod.nullAction) :
    ∃ h' o', setUp reg h t = some h' ∧ h'[t]? = some o' ∧
      o'.items[reg.getData D]? = some B := by
  obtain ⟨h', o', par, hs, ho', hitems, _, _, _⟩ :=
    setUp_child_items reg h t p o hwf ho hstale hp
  refine ⟨h', o', hs, ho', ?_⟩
  rw [hitems]
  refine fillFromParent_keep _ _ _ B ?_ hB'
  have := localTable_last reg o pre post (D, B) (reg.getData D) hregs (Or.inl rfl)
    (fun x hx hw => hpost x hx ((writes_iff_covers hu x.1 D).1 hw))
  rwa [stored_of_ne_NULL hB] at this

/-- The override of C3 on the shapes: the parent registers `(Square,
renderGeneric)`, the child `(Square, renderSquareFast)`, and the child keeps
its own method. -/
theorem setUp_local_override_witness :
    ∃ h' o', setUp shapes
        [registered none [(Square, renderGeneric)],
         registered (some 0) [(Square, renderSquareFast)]] 1 = some h' ∧
      h'[1]? = some o' ∧ o'.items[shapes.getData Square]? = some renderSquareFast :=
  setUp_local_override shapes _ 1 0 (registered (some 0) [(Square, renderSquareFast)])
    Square renderSquareFast [] [] (by decide) shapes_unique rfl (by decide) rfl rfl
    (by simp) (by decide) (by decide)

/-- C3 as stated fails for `B = nullAction`: the parent registers `(Circle,
renderCircle)`, the child `(Circle, nullAction)`, and after the child's `setUp`
its entry for `Circle` is the parent's `renderCircle`. -/
theorem setUp_nullAction_overridden_by_parent :
    ∃ h' o', setUp shapes
        [registered none [(Circle, renderCircle)],
         registered (some 0) [(Circle, SoActionMethod.nullAction)]] 1 = some h' ∧
      h'[1]? = some o' ∧
      o'.items[shapes.getData Circle]? = some renderCircle ∧
      o'.items[shapes.getData Circle]? ≠ some SoActionMethod.nullAction :=
  ⟨_, _, rfl, rfl, rfl, by decide⟩

/-- C5, the failing run: the parent has a registration for `Field`, whose index
4 lies past the four node types, the child has none. The parent's table gets
five slots; the child's copy loop reads its own slot 4, which grows the child's
table by a `NULL` slot that is neither `nullAction` nor replaced by the
parent's method. -/
theorem setUp_leaves_NULL_slot :
    ∃ h' po o', setUp shapesAndField
        [registered none [(Field, renderGeneric)], registered (some 0) []] 1 = some h' ∧
      h'[0]? = some po ∧ h'[1]? = some o' ∧
      po.items[4]? = some renderGeneric ∧
      o'.items.length = 5 ∧ o'.items[4]? = some SoActionMethod.NULL :=
  ⟨_, _, _, rfl, rfl, rfl, rfl, rfl, rfl⟩


/-- C6: on a heap whose parent pointers are valid, `setUp` on a list whose marker
is out of date returns, the table then has at least as many slots as there are
types derived from the node class, and, the node indices being dense, the index
of every such type is below the table's length. -/
theorem setUp_covers_node_types (reg : SoTypeRegistry) (h : Heap) (t : Nat)
    (o : SoActionMethodList) (hwf : h.WF) (hd : DenseNodeIds reg)
    (ho : h[t]? = some o) (hstale : o.setupnumtypes ≠ reg.getNumTypes) :
    ∃ h' o', setUp reg h t = some h' ∧ h'[t]? = some o' ∧
      (reg.getAllDerivedFrom reg.nodeClassTypeId).length ≤ o'.items.length ∧
      ∀ T ∈ reg.getAllDerivedFrom reg.nodeClassTypeId, reg.getData T < o'.items.length := by
  have key : ∃ h' o', setUp reg h t = some h' ∧ h'[t]? = some o' ∧
      (reg.getAllDerivedFrom reg.nodeClassTypeId).length ≤ o'.items.length := by
    cases hp : o.parent with
    | none =>
      obtain ⟨h', o', hs, ho', hitems, _⟩ := setUp_root_items reg h t o ho hstale hp
      exact ⟨h', o', hs, ho', hitems ▸ count_le_length_localTable reg o⟩
    | some p =>
      obtain ⟨h', o', par, hs, ho', hitems, _⟩ :=
        setUp_child_items reg h t p o hwf ho hstale hp
      refine ⟨h', o', hs, ho', ?_⟩
      rw [hitems, length_fillFromParent]
      exact le_trans (count_le_length_localTable reg o) (le_max_left _ _)
  obtain ⟨h', o', hs, ho', hlen⟩ := key
  exact ⟨h', o', hs, ho', hlen, fun T hT => lt_of_lt_of_le (dense_lt_count hd hT) hlen⟩

/-- The coverage of C6 on the shapes: a child without registrations under a
parent without registrations. -/
theorem setUp_covers_node_types_witness :
    ∃ h' o', setUp shapes [registered none [], registered (some 0) []] 1 = some h' ∧
      h'[1]? = some o' ∧
      (shapes.getAllDerivedFrom shapes.nodeClassTypeId).length ≤ o'.items.length ∧
      ∀ T ∈ shapes.getAllDerivedFrom shapes.nodeClassTypeId,
        shapes.getData T < o'.items.length :=
  setUp_covers_node_types shapes _ 1 (registered (some 0) []) (by decide) shapes_dense rfl
    (by decide)

/-- C7: on a heap whose parent pointers are valid, `setUp` returns, and a second
`setUp` right after it, with the same registry and no `addMethod` in between,
returns the very same heap: every table and every marker is as the first call
left it. -/
theorem setUp_idempotent (reg : SoTypeRegistry) (h : Heap) (t : Nat)
    (hwf : h.WF) (ht : t < h.length) :
    ∃ h1, setUp reg h t = some h1 ∧ setUp reg h1 t = some h1 := by
  obtain ⟨h1, hs⟩ := setUp_total reg h t hwf ht
  obtain ⟨o1, ho1, hm⟩ := setUpAux_marker reg _ h t h1 hs
  exact ⟨h1, hs, setUpAux_fresh reg h1.length h1 t o1 ho1 hm⟩

/-- The idempotence of C7 on the parent and child of the shapes. -/
theorem setUp_idempotent_witness :
    ∃ h1, setUp shapes
        [registered none [(Shape, renderGeneric), (Circle, renderCircle)],
         registered (some 0) [(Square, renderSquareFast)]] 1 = some h1 ∧
      setUp shapes h1 1 = some h1 :=
  setUp_idempotent shapes _ 1 (by decide) (by decide)

/-- C8: in a registry that holds a type, `addMethod(T, B)` leaves a marker that
differs from the number of types, keeps the table and the parent pointer,
and appends `T` and `B` to the registrations; the next `setUp` then rebuilds
the table from the registrations (completing it from the parent when there is
one) and stores the number of types in the marker. -/
theorem addMethod_marks_stale (reg : SoTypeRegistry) (h : Heap) (t : Nat)
    (o : SoActionMethodList) (T : SoType) (B : SoActionMethod)
    (hnum : 0 < reg.getNumTypes) (hwf : h.WF) (ho : h[t]? = some (o.addMethod T B)) :
    (o.addMethod T B).setupnumtypes ≠ reg.getNumTypes ∧
    (o.addMethod T B).items = o.items ∧
    (o.addMethod T B).parent = o.parent ∧
    (o.addMethod T B).addedtypes = o.addedtypes ++ [T] ∧
    (o.addMethod T B).addedmethods = o.addedmethods ++ [B] ∧
    ∃ h' o', setUp reg h t = some h' ∧ h'[t]? = some o' ∧
      o'.setupnumtypes = reg.getNumTypes ∧
      (o.parent = none → o'.items = localTable reg (o.addMethod T B)) ∧
      (∀ p, o.parent = some p →
        ∃ par, o'.items = fillFromParent (localTable reg (o.addMethod T B)) par) := by
  have hstale : (o.addMethod T B).setupnumtypes ≠ reg.getNumTypes := by
    show 0 ≠ reg.getNumTypes
    omega
  refine ⟨hstale, rfl, rfl, rfl, rfl, ?_⟩
  cases hp : o.parent with
  | none =>
    obtain ⟨h', o', hs, ho', hitems, hm⟩ :=
      setUp_root_items reg h t _ ho hstale hp
    exact ⟨h', o', hs, ho', hm, fun _ => hitems, fun p hp' => (by cases hp')⟩
  | some p =>
    obtain ⟨h', o', par, hs, ho', hitems, hm, _⟩ :=
      setUp_child_items reg h t p _ hwf ho hstale hp
    exact ⟨h', o', hs, ho', hm, fun hn => (by cases hn), fun _ _ => ⟨par, hitems⟩⟩

/-- The staleness of C8 on the shapes: a list that was set up receives
`addMethod(Circle, renderCircle)`. -/
theorem addMethod_marks_stale_witness :
    (({ registered none [] with items := [renderGeneric], setupnumtypes := 4 } :
        SoActionMethodList).addMethod Circle renderCircle).setupnumtypes
      ≠ shapes.getNumTypes :=
  (addMethod_marks_stale shapes
    [({ registered none [] with items := [renderGeneric], setupnumtypes := 4 } :
        SoActionMethodList).addMethod Circle renderCircle] 0
    { registered none [] with items := [renderGeneric], setupnumtypes := 4 }
    Circle renderCircle (by decide) (by decide) rfl).1


theorem exists_last_split {α : Type} (P : α → Prop) (l : List α) (h : ∃ x ∈ l, P x) :
    ∃ pre x post, l = pre ++ x :: post ∧ P x ∧ ∀ y ∈ post, ¬ P y := by
  induction l with
  | nil => simp at h
  | cons a as ih =>
    by_cases hrest : ∃ x ∈ as, P x
    · obtain ⟨pre, x, post, e, hx, hpost⟩ := ih hrest
      exact ⟨a :: pre, x, post, by rw [e]; rfl, hx, hpost⟩
    · obtain ⟨x, hx, hPx⟩ := h
      rcases List.mem_cons.1 hx with e | hmem
      · subst e
        exact ⟨[], x, as, rfl, hPx, fun y hy hPy => hrest ⟨y, hy, hPy⟩⟩
      · exact absurd ⟨x, hmem, hPx⟩ hrest

/-- When the registrations leave the entry of `D` to the parent or the default,
the rebuilt table holds `nullAction` at the index of `D`, if it reaches it. -/
theorem localTable_default (reg : SoTypeRegistry) (o : SoActionMethodList) (D : SoType)
    (hu : UniqueIds reg)
    (hdef : localDefault reg (o.addedtypes.zip o.addedmethods) D)
    (hlen : reg.getData D < (localTable reg o).length) :
    (localTable reg o)[reg.getData D]? = some SoActionMethod.nullAction := by
  by_cases hex : ∃ r ∈ o.addedtypes.zip o.addedmethods, covers reg r.1 D
  · obtain ⟨pre, r, post, e, hr, hpost⟩ := exists_last_split _ _ hex
    have hl := localTable_last reg o pre post r (reg.getData D) e
      ((writes_iff_covers hu r.1 D).2 hr)
      (fun x hx hw => hpost x hx ((writes_iff_covers hu x.1 D).1 hw))
    rw [hl]
    rcases hdef pre post r.1 r.2 e hr hpost with hm | hm <;> rw [hm] <;> rfl
  · refine localTable_none reg o _ ?_ hlen
    exact fun r hr hw => hex ⟨r, hr, (writes_iff_covers hu r.1 D).1 hw⟩

/-- C9, amended: a list is set up against a registry, the registry then grows to
one with more types, unique indices and dense node indices, and `setUp` runs
again with no `addMethod` in between. The second `setUp` returns with the new
number of types in the marker, and for a node type `D` of the grown registry
(a brand-new one included) the entry at the index of `D` is: the method of the
last registration covering `D` when that method is neither `NULL` nor
`nullAction`; otherwise the parent's entry at that index when there is a parent
whose table has one; otherwise, with no parent, `nullAction`. -/
theorem setUp_after_registry_growth (reg1 reg2 : SoTypeRegistry) (h0 h1 : Heap)
    (t : Nat) (o1 : SoActionMethodList) (D : SoType)
    (hwf : h0.WF) (hgrow : reg1.getNumTypes < reg2.getNumTypes)
    (hu : UniqueIds reg2) (hd : DenseNodeIds reg2)
    (hfirst : setUp reg1 h0 t = some h1) (ho1 : h1[t]? = some o1)
    (hD : D ∈ reg2.getAllDerivedFrom reg2.nodeClassTypeId) :
    ∃ h2 o2, setUp reg2 h1 t = some h2 ∧ h2[t]? = some o2 ∧
      o2.setupnumtypes = reg2.getNumTypes ∧
      (∀ (pre post : List (SoType × SoActionMethod)) (A : SoType) (m : SoActionMethod),
        o1.addedtypes.zip o1.addedmethods = pre ++ (A, m) :: post →
        covers reg2 A D → (∀ r ∈ post, ¬ covers reg2 r.1 D) →
        m ≠ SoActionMethod.NULL → m ≠ SoActionMethod.nullAction →
        o2.items[reg2.getData D]? = some m) ∧
      (localDefault reg2 (o1.addedtypes.zip o1.addedmethods) D →
        ∀ p po a, o1.parent = some p → h2[p]? = some po →
          po.items[reg2.getData D]? = some a → o2.items[reg2.getData D]? = some a) ∧
      (localDefault reg2 (o1.addedtypes.zip o1.addedmethods) D → o1.parent = none →
        o2.items[reg2.getData D]? = some SoActionMethod.nullAction) := by
  have hwf1 : h1.WF := evolves_wf (setUpAux_evolves reg1 _ h0 t h1 hfirst) hwf
  obtain ⟨o1', ho1', hm1⟩ := setUpAux_marker reg1 _ h0 t h1 hfirst
  have e1 : o1' = o1 := by rw [ho1] at ho1'; exact (Option.some.inj ho1').symm
  subst e1
  have hstale : o1'.setupnumtypes ≠ reg2.getNumTypes := by rw [hm1]; omega
  have hidx : reg2.getData D < (localTable reg2 o1').length :=
    lt_of_lt_of_le (dense_lt_count hd hD) (count_le_length_localTable reg2 o1')
  cases hp : o1'.parent with
  | none =>
    obtain ⟨h2, o2, hs, ho2, hitems, hm2⟩ := setUp_root_items reg2 h1 t o1' ho1 hstale hp
    refine ⟨h2, o2, hs, ho2, hm2, ?_, ?_, ?_⟩
    · intro pre post A m hregs hA hpost hm hm'
      rw [hitems]
      have := localTable_last reg2 o1' pre post (A, m) (reg2.getData D) hregs
        ((writes_iff_covers hu A D).2 hA)
        (fun x hx hw => hpost x hx ((writes_iff_covers hu x.1 D).1 hw))
      rwa [stored_of_ne_NULL hm] at this
    · intro _ p po a hp'
      cases hp'
    · intro hdef _
      rw [hitems]
      exact localTable_default reg2 o1' D hu hdef hidx
  | some p =>
    obtain ⟨h2, o2, par, hs, ho2, hitems, hm2, hne, heq⟩ :=
      setUp_child_items reg2 h1 t p o1' hwf1 ho1 hstale hp
    refine ⟨h2, o2, hs, ho2, hm2, ?_, ?_, ?_⟩
    · intro pre post A m hregs hA hpost hm hm'
      rw [hitems]
      refine fillFromParent_keep _ _ _ m ?_ hm'
      have := localTable_last reg2 o1' pre post (A, m) (reg2.getData D) hregs
        ((writes_iff_covers hu A D).2 hA)
        (fun x hx hw => hpost x hx ((writes_iff_covers hu x.1 D).1 hw))
      rwa [stored_of_ne_NULL hm] at this
    · intro hdef q po a hq hpo ha
      have eq : p = q := Option.some.inj hq
      subst eq
      by_cases hpt : p = t
      · subst hpt
        rw [ho2] at hpo
        rw [Option.some.inj hpo]
        exact ha
      · obtain ⟨po', hpo', hpar⟩ := hne hpt
        rw [hpo] at hpo'
        have e : po = po' := Option.some.inj hpo'
        subst e
        rw [hitems]
        exact fillFromParent_take _ _ _ a (localTable_default reg2 o1' D hu hdef hidx)
          (hpar ▸ ha)
    · intro _ hn
      cases hn

/-- The growth of C9 on the shapes: the parent registers `(Shape, renderGeneric)`
and `(Circle, renderCircle)`, the child `(Square, renderSquareFast)`; both are set
up, `Hexagon` is added to the registry, and the child's next `setUp` gives
`Hexagon` the parent's `renderGeneric`. -/
theorem setUp_after_registry_growth_witness :
    ∃ h1 h2 o2, setUp shapes
        [registered none [(Shape, renderGeneric), (Circle, renderCircle)],
         registered (some 0) [(Square, renderSquareFast)]] 1 = some h1 ∧
      setUp shapesGrown h1 1 = some h2 ∧ h2[1]? = some o2 ∧
      o2.setupnumtypes = shapesGrown.getNumTypes ∧
      o2.items[shapesGrown.getData Hexagon]? = some renderGeneric := by
  obtain ⟨h2, o2, hs, ho2, hm, _, hpar, _⟩ :=
    setUp_after_registry_growth shapes shapesGrown
      [registered none [(Shape, renderGeneric), (Circle, renderCircle)],
       registered (some 0) [(Square, renderSquareFast)]] _ 1 _ Hexagon
      (by decide) (by decide) (fun _ _ e => e) (by unfold DenseNodeIds; decide) rfl rfl
      (by decide)
  refine ⟨_, h2, o2, rfl, hs, ho2, hm, ?_⟩
  have hdef : localDefault shapesGrown
      ((registered (some 0) [(Square, renderSquareFast)]).addedtypes.zip
        (registered (some 0) [(Square, renderSquareFast)]).addedmethods) Hexagon := by
    intro pre post A m e hA _
    have hmem : (A, m) ∈ [(Square, renderSquareFast)] := by
      have : (A, m) ∈ pre ++ (A, m) :: post := by simp
      rw [← e] at this
      exact this
    simp only [List.mem_singleton, Prod.mk.injEq] at hmem
    rw [hmem.1] at hA
    exact absurd hA (by decide)
  cases hs
  cases ho2
  exact hpar hdef 0 _ renderGeneric rfl rfl rfl

/-- C9 as stated fails when the covering registration is `nullAction`: the parent
registers `(Shape, renderGeneric)`, the child `(Shape, nullAction)`; after the
registry gained `Hexagon`, the child's entry for `Hexagon` is the parent's
`renderGeneric`, not the `nullAction` of the child's own covering registration. -/
theorem setUp_after_growth_nullAction_overridden :
    ∃ h1 h2 o2, setUp shapes
        [registered none [(Shape, renderGeneric)],
         registered (some 0) [(Shape, SoActionMethod.nullAction)]] 1 = some h1 ∧
      setUp shapesGrown h1 1 = some h2 ∧ h2[1]? = some o2 ∧
      o2.items[shapesGrown.getData Hexagon]? = some renderGeneric ∧
      o2.items[shapesGrown.getData Hexagon]? ≠ some SoActionMethod.nullAction :=
  ⟨_, _, _, rfl, rfl, rfl, rfl, by decide⟩

/-- The unfolding of `setUp` on an object with a parent whose marker is out of
date, read forwards: from the parent's run to the object's. -/
theorem setUpAux_stale_parent_eq (reg : SoTypeRegistry) (fuel : Nat) (h h2 : Heap)
    (t p : Nat) (o o2 po : SoActionMethodList) (ho : h[t]? = some o)
    (hstale : o.setupnumtypes ≠ reg.getNumTypes) (hp : o.parent = some p)
    (hs : setUpAux reg fuel (h.set t (rebuilt reg o)) p = some h2)
    (h2t : h2[t]? = some o2) (h2p : h2[p]? = some po) :
    setUpAux reg (fuel + 1) h t
      = some (h2.set t { o2 with items := fillFromParent o2.items po.items }) := by
  simp only [setUpAux, ho, hstale, hp, ne_eq, not_false_eq_true, if_true, hs, h2t, h2p]

/-- More fuel does not change what `setUp` returns. -/
theorem setUpAux_succ (reg : SoTypeRegistry) (fuel : Nat) (h : Heap) (t : Nat) (h' : Heap)
    (hs : setUpAux reg fuel h t = some h') : setUpAux reg (fuel + 1) h t = some h' := by
  induction fuel generalizing h t h' with
  | zero => simp [setUpAux] at hs
  | succ fuel ih =>
    cases ho : h[t]? with
    | none => simp [setUpAux, ho] at hs
    | some o =>
      by_cases hfresh : o.setupnumtypes = reg.getNumTypes
      · rw [setUpAux_fresh reg fuel h t o ho hfresh] at hs
        rw [setUpAux_fresh reg (fuel + 1) h t o ho hfresh]
        exact hs
      · cases hp : o.parent with
        | none =>
          rw [setUpAux_stale_root reg fuel h t o ho hfresh hp] at hs
          rw [setUpAux_stale_root reg (fuel + 1) h t o ho hfresh hp]
          exact hs
        | some p =>
          obtain ⟨h2, po, h2e, h2t, h2p, e⟩ :=
            setUpAux_stale_parent reg fuel h t p o h' ho hfresh hp hs
          rw [setUpAux_stale_parent_eq reg (fuel + 1) h h2 t p o (rebuilt reg o) po ho hfresh hp
            (ih _ _ _ h2e) h2t h2p, e]
          rfl

theorem setUpAux_mono (reg : SoTypeRegistry) (fuel fuel' : Nat) (h : Heap) (t : Nat)
    (h' : Heap) (hle : fuel ≤ fuel') (hs : setUpAux reg fuel h t = some h') :
    setUpAux reg fuel' h t = some h' := by
  induction hle with
  | refl => exact hs
  | step _ ih => exact setUpAux_succ reg _ h t h' ih

/-- In a heap reached from one where the object at `t` has just been rebuilt, a
call of `setUp` on `t` returns at once and changes nothing. -/
theorem setUpAux_reentry (reg : SoTypeRegistry) (h g : Heap) (t : Nat)
    (o : SoActionMethodList) (ho : h[t]? = some o)
    (hev : Evolves reg (h.set t (rebuilt reg o)) g) (fuel : Nat) :
    setUpAux reg (fuel + 1) g t = some g := by
  have h1t : (h.set t (rebuilt reg o))[t]? = some (rebuilt reg o) := by
    simp [List.getElem?_set, getElem?_lt ho]
  obtain ⟨o', ho', _, _, _, hf⟩ := hev.2 t _ h1t
  have e : o' = rebuilt reg o := hf rfl
  subst e
  exact setUpAux_fresh reg fuel g t _ ho' rfl

/-- C13: on every heap whose parent pointers stay inside it, cyclic links
included, `setUp` returns, and returns the same heap for any fuel above the
number of lists whose marker is out of date. The reason: a rebuild stores the
marker first, which lowers that number by one, and from then on, in every heap
the nested calls reach, a call of `setUp` on the list being rebuilt returns at
once with the heap unchanged. -/
theorem setUp_terminates (reg : SoTypeRegistry) (h : Heap) (t : Nat)
    (hwf : h.WF) (ht : t < h.length) :
    (∃ h', setUp reg h t = some h' ∧
      ∀ fuel, staleCount reg h < fuel → setUpAux reg fuel h t = some h') ∧
    (∀ o, h[t]? = some o → o.setupnumtypes ≠ reg.getNumTypes →
      staleCount reg (h.set t (rebuilt reg o)) + 1 = staleCount reg h ∧
      ∀ g, Evolves reg (h.set t (rebuilt reg o)) g →
        ∀ fuel, setUpAux reg (fuel + 1) g t = some g) := by
  constructor
  · obtain ⟨h', hs⟩ := setUp_total reg h t hwf ht
    refine ⟨h', hs, fun fuel hfuel => ?_⟩
    obtain ⟨h'', hs'⟩ := setUpAux_total reg fuel h t hwf ht hfuel
    rcases Nat.le_total fuel (h.length + 1) with hle | hle
    · have := setUpAux_mono reg fuel (h.length + 1) h t h'' hle hs'
      rw [show setUpAux reg (h.length + 1) h t = setUp reg h t from rfl, hs] at this
      rw [hs', ← Option.some.inj this]
    · exact setUpAux_mono reg (h.length + 1) fuel h t h' hle hs
  · intro o ho hstale
    exact ⟨staleCount_set reg h t o (rebuilt reg o) ho hstale rfl,
      fun g hev fuel => setUpAux_reentry reg h g t o ho hev fuel⟩

/-- The termination of C13 on two lists that are each other's parent. -/
theorem setUp_terminates_witness :
    ∃ h', setUp shapes cyclicPair 0 = some h' ∧
      ∀ fuel, staleCount shapes cyclicPair < fuel →
        setUpAux shapes fuel cyclicPair 0 = some h' :=
  (setUp_terminates shapes cyclicPair 0 (by decide) (by decide)).1

/-- C11, amended: a cycle of parent links is not detected. When the list at `a`
names the list at `b` as parent and `b` names `a`, both with a marker out of
date, `setUp` on `a` completes: `a` is rebuilt from its registrations, `b` is
rebuilt and completed from `a`'s table as it stands then (the nested call on
`a` returns at once), and `a` is completed from `b`'s table. -/
theorem setUp_two_cycle (reg : SoTypeRegistry) (h : Heap) (a b : Nat)
    (oa ob : SoActionMethodList) (hab : a ≠ b)
    (ha : h[a]? = some oa) (hb : h[b]? = some ob)
    (hpa : oa.parent = some b) (hpb : ob.parent = some a)
    (hsa : oa.setupnumtypes ≠ reg.getNumTypes)
    (hsb : ob.setupnumtypes ≠ reg.getNumTypes) :
    setUp reg h a = some
      ((((h.set a (rebuilt reg oa)).set b (rebuilt reg ob)).set b
          { rebuilt reg ob with
            items := fillFromParent (localTable reg ob) (localTable reg oa) }).set a
        { rebuilt reg oa with
          items := fillFromParent (localTable reg oa)
            (fillFromParent (localTable reg ob) (localTable reg oa)) }) := by
  have hla : a < h.length := getElem?_lt ha
  have hlb : b < h.length := getElem?_lt hb
  obtain ⟨n, hn⟩ : ∃ n, h.length = n + 2 := ⟨h.length - 2, by omega⟩
  have h1a : (h.set a (rebuilt reg oa))[a]? = some (rebuilt reg oa) := by
    simp [List.getElem?_set, hla]
  have h1b : (h.set a (rebuilt reg oa))[b]? = some ob := by
    simp [List.getElem?_set, hab, hb]
  have h2a : ((h.set a (rebuilt reg oa)).set b (rebuilt reg ob))[a]?
      = some (rebuilt reg oa) := by
    simp [List.getElem?_set, Ne.symm hab, hla]
  have h2b : ((h.set a (rebuilt reg oa)).set b (rebuilt reg ob))[b]?
      = some (rebuilt reg ob) := by
    simp [List.getElem?_set, hlb]
  have inner : setUpAux reg (n + 1) ((h.set a (rebuilt reg oa)).set b (rebuilt reg ob)) a
      = some ((h.set a (rebuilt reg oa)).set b (rebuilt reg ob)) :=
    setUpAux_fresh reg n _ a _ h2a rfl
  have mid := setUpAux_stale_parent_eq reg (n + 1) (h.set a (rebuilt reg oa)) _ b a ob
    (rebuilt reg ob) (rebuilt reg oa) h1b hsb hpb inner h2b h2a
  have h3a : (((h.set a (rebuilt reg oa)).set b (rebuilt reg ob)).set b
      { rebuilt reg ob with
        items := fillFromParent (rebuilt reg ob).items (rebuilt reg oa).items })[a]?
      = some (rebuilt reg oa) := by
    simp [List.getElem?_set, Ne.symm hab, hla]
  have h3b : (((h.set a (rebuilt reg oa)).set b (rebuilt reg ob)).set b
      { rebuilt reg ob with
        items := fillFromParent (rebuilt reg ob).items (rebuilt reg oa).items })[b]?
      = some { rebuilt reg ob with
        items := fillFromParent (rebuilt reg ob).items (rebuilt reg oa).items } := by
    simp [List.getElem?_set, hlb]
  have outer := setUpAux_stale_parent_eq reg (n + 2) h _ a b oa (rebuilt reg oa) _
    ha hsa hpa mid h3a h3b
  unfold setUp
  rw [hn, outer]
  rfl

/-- The cycle of C11, amended, on the pair of lists that are each other's parent. -/
theorem setUp_two_cycle_witness :
    setUp shapes cyclicPair 0 = some
      ((((cyclicPair.set 0 (rebuilt shapes (registered (some 1) [(Circle, renderCircle)]))).set 1
          (rebuilt shapes (registered (some 0) [(Square, renderSquareFast)]))).set 1
          { rebuilt shapes (registered (some 0) [(Square, renderSquareFast)]) with
            items := fillFromParent
              (localTable shapes (registered (some 0) [(Square, renderSquareFast)]))
              (localTable shapes (registered (some 1) [(Circle, renderCircle)])) }).set 0
        { rebuilt shapes (registered (some 1) [(Circle, renderCircle)]) with
          items := fillFromParent
            (localTable shapes (registered (some 1) [(Circle, renderCircle)]))
            (fillFromParent
              (localTable shapes (registered (some 0) [(Square, renderSquareFast)]))
              (localTable shapes (registered (some 1) [(Circle, renderCircle)]))) }) :=
  setUp_two_cycle shapes cyclicPair 0 1 (registered (some 1) [(Circle, renderCircle)])
    (registered (some 0) [(Square, renderSquareFast)]) (by decide) rfl rfl rfl rfl
    (by decide) (by decide)

/-- C11 as stated fails: on the two lists that are each other's parent `setUp`
raises nothing and completes the rebuild; both markers take the number of
types and both tables read `nullAction`, `renderCircle`, `renderSquareFast`,
`nullAction`. -/
theorem setUp_completes_on_cycle :
    (∃ a b, cyclicPair[0]? = some a ∧ cyclicPair[1]? = some b ∧
      a.parent = some 1 ∧ b.parent = some 0) ∧
    ∃ h' a' b', setUp shapes cyclicPair 0 = some h' ∧
      h'[0]? = some a' ∧ h'[1]? = some b' ∧
      a'.setupnumtypes = shapes.getNumTypes ∧ b'.setupnumtypes = shapes.getNumTypes ∧
      a'.items = [SoActionMethod.nullAction, renderCircle, renderSquareFast,
        SoActionMethod.nullAction] ∧
      b'.items = [SoActionMethod.nullAction, renderCircle, renderSquareFast,
        SoActionMethod.nullAction] :=
  ⟨⟨_, _, rfl, rfl, rfl, rfl⟩, _, _, _, rfl, rfl, rfl, rfl, rfl, rfl, rfl⟩

/-- After `setUp` on an object with a parent whose marker was out of date, the
parent's marker is the current number of types. -/
theorem setUp_child_parent_marker (reg : SoTypeRegistry) (h h' : Heap) (t p : Nat)
    (o : SoActionMethodList) (ho : h[t]? = some o)
    (hstale : o.setupnumtypes ≠ reg.getNumTypes) (hp : o.parent = some p)
    (hs : setUp reg h t = some h') :
    ∃ po, h'[p]? = some po ∧ po.setupnumtypes = reg.getNumTypes := by
  obtain ⟨h2, po2, h2e, h2t, _, e⟩ :=
    setUpAux_stale_parent reg h.length h t p o h' ho hstale hp hs
  obtain ⟨po, hpo, hm⟩ := setUpAux_marker reg _ _ p h2 h2e
  by_cases hpt : p = t
  · subst hpt
    exact ⟨{ rebuilt reg o with items := fillFromParent (localTable reg o) po2.items },
      by rw [e]; simp [List.getElem?_set, getElem?_lt h2t], rfl⟩
  · exact ⟨po, by rw [e]; simp [List.getElem?_set, Ne.symm hpt, hpo], hm⟩

/-- C12, amended: a list with a parent, on a heap with valid parent pointers, in a
registry with unique, dense node indices. A list whose marker equals the number
of types is not rebuilt: `setUp` returns the heap as it is and the parent is not
consulted. A list whose marker is out of date is rebuilt after its parent was
brought up to date (`setUp` on the parent then changes nothing), and for a node
type `D` that no registration of the list covers, the list's entry is the entry
the parent's table holds at the index of `D`. -/
theorem setUp_child_follows_parent (reg : SoTypeRegistry) (h : Heap) (t p : Nat)
    (o : SoActionMethodList) (D : SoType)
    (hwf : h.WF) (hu : UniqueIds reg) (hd : DenseNodeIds reg)
    (ho : h[t]? = some o) (hp : o.parent = some p)
    (hD : D ∈ reg.getAllDerivedFrom reg.nodeClassTypeId)
    (hnone : ∀ r ∈ o.addedtypes.zip o.addedmethods, ¬ covers reg r.1 D) :
    (o.setupnumtypes = reg.getNumTypes → setUp reg h t = some h) ∧
    (o.setupnumtypes ≠ reg.getNumTypes →
      ∃ h' o', setUp reg h t = some h' ∧ h'[t]? = some o' ∧
        setUp reg h' p = some h' ∧
        ∀ po A, h'[p]? = some po → po.items[reg.getData D]? = some A →
          o'.items[reg.getData D]? = some A) := by
  constructor
  · intro hfresh
    exact setUpAux_fresh reg h.length h t o ho hfresh
  · intro hstale
    obtain ⟨h', o', par, hs, ho', hitems, _, hne, _⟩ :=
      setUp_child_items reg h t p o hwf ho hstale hp
    obtain ⟨pm, hpm, hmark⟩ := setUp_child_parent_marker reg h h' t p o ho hstale hp hs
    refine ⟨h', o', hs, ho', setUpAux_fresh reg h'.length h' p pm hpm hmark,
      fun po A hpo hA => ?_⟩
    by_cases hpt : p = t
    · subst hpt
      rw [ho'] at hpo
      rw [Option.some.inj hpo]
      exact hA
    · obtain ⟨po', hpo', hpar⟩ := hne hpt
      rw [hpo] at hpo'
      have e : po = po' := Option.some.inj hpo'
      subst e
      rw [hitems]
      refine fillFromParent_take _ _ _ A ?_ (hpar ▸ hA)
      refine localTable_none reg o _ ?_ ?_
      · exact fun r hr hw => hnone r hr ((writes_iff_covers hu r.1 D).1 hw)
      · exact lt_of_lt_of_le (dense_lt_count hd hD) (count_le_length_localTable reg _)

/-- C12, amended, on the shapes: the child that received `addMethod(Square,
renderSquareFast)` is rebuilt and takes `Circle` from its parent. -/
theorem setUp_child_follows_parent_witness :
    ∃ h' o', setUp shapes
        [registered none [(Shape, renderGeneric), (Circle, renderCircle)],
         registered (some 0) [(Square, renderSquareFast)]] 1 = some h' ∧
      h'[1]? = some o' ∧ setUp shapes h' 0 = some h' ∧
      ∀ po A, h'[0]? = some po → po.items[shapes.getData Circle]? = some A →
        o'.items[shapes.getData Circle]? = some A :=
  (setUp_child_follows_parent shapes
    [registered none [(Shape, renderGeneric), (Circle, renderCircle)],
     registered (some 0) [(Square, renderSquareFast)]] 1 0
    (registered (some 0) [(Square, renderSquareFast)]) Circle
    (by decide) shapes_unique shapes_dense rfl rfl (by decide) (by decide)).2 (by decide)

/-- C12 as stated fails: parent and child, both without registrations, are set
up through the child; the parent then receives `addMethod(Circle, renderCircle)`
and the registry stays as it is. The child's next `setUp` changes nothing and
its entry for `Circle` is still `nullAction`, while the parent's own `setUp`
gives `Circle` the entry `renderCircle`. -/
theorem setUp_child_keeps_stale_parent_entry :
    ∃ h1 h3 h4 c q, setUp shapes [registered none [], registered (some 0) []] 1 = some h1 ∧
      setUp shapes (addMethodAt h1 0 Circle renderCircle) 1 = some h3 ∧
      h3 = addMethodAt h1 0 Circle renderCircle ∧
      h3[1]? = some c ∧
      c.items[shapes.getData Circle]? = some SoActionMethod.nullAction ∧
      setUp shapes h3 0 = some h4 ∧ h4[0]? = some q ∧
      q.items[shapes.getData Circle]? = some renderCircle :=
  ⟨_, _, _, _, _, rfl, rfl, rfl, rfl, rfl, rfl, rfl, rfl⟩

end Coin
